import Mathlib

/-!
Verification of the voxel CSG engine: a sparse octree over a boolean 3D
occupancy field, with union / intersection / difference / invert combinators,
primitive rasterizers and a point-stream export adapter.

The octree storage itself lives in an external crate; its contract (keys,
existence-aware lookup, path-creation with insert-if-vacant semantics,
depth-first enumeration of nodes) is modelled from the spec as an arena:
an association list from `(level, coordinate)` keys to boolean payloads.
The combinators, rasterizers and export logic are translated from the
library source on top of that arena.
-/

set_option maxHeartbeats 1000000

/-- An integer voxel coordinate `(x, y, z)`, modelling `IVec3` componentwise. -/
abbrev Coord : Type := Int × Int × Int

/-- A node address: the pair `(level, coordinate)`. -/
abbrev NodeKey : Type := Nat × Coord

/-- Modelled from the spec: the Sparse Octree Storage component (`OctreeI32<bool>`).
The arena of currently-existing nodes is an association list from `NodeKey` to the
stored boolean payload; `height` fixes the valid level range `[0, height-1]`. -/
structure VoxelCSG where
  height : Nat
  nodes : List (NodeKey × Bool)
deriving DecidableEq

/-- Lookup of a key in the arena: the stored payload, or `none` when no node was
ever created at that key (existence is a storage fact, not an addressing fact). -/
def findVal : List (NodeKey × Bool) → NodeKey → Option Bool
  | [], _ => none
  | (k, v) :: rest, k0 => if k = k0 then some v else findVal rest k0

/-- `VoxelCSG::get_voxel`: look for the level-0 node at `p`; return its payload,
absence maps to `false`. -/
def get_voxel (t : VoxelCSG) (p : Coord) : Bool :=
  (findVal t.nodes (0, p)).getD false

/-- Coordinate of the ancestor cube covering `p` at a given level: componentwise
arithmetic shift right, i.e. floor division by `2 ^ level`. -/
def ancestorCoord (l : Nat) (p : Coord) : Coord :=
  (Int.fdiv p.1 (2 ^ l), Int.fdiv p.2.1 (2 ^ l), Int.fdiv p.2.2 (2 ^ l))

/-- Insert a key with the given payload only when the slot is vacant; an entry
that already exists is never touched (`entry.or_insert_with`). -/
def insertIfAbsent (ns : List (NodeKey × Bool)) (k : NodeKey) (v : Bool) :
    List (NodeKey × Bool) :=
  match findVal ns k with
  | some _ => ns
  | none => (k, v) :: ns

/-- The keys on the root-to-leaf path addressing a level-0 target, coarsest
level first. -/
def pathKeys (h : Nat) (p : Coord) : List NodeKey :=
  (List.range h).reverse.map (fun l => (l, ancestorCoord l p))

/-- Modelled from the spec: `fill_path_to_node_from_root` at a level-0 key with
the closure `entry.or_insert_with(|| true)` used by every rasterizer and
combinator — every missing node on the root-to-leaf path is created with
payload `true`; nodes that already existed are left untouched. -/
def fillPathTrue (t : VoxelCSG) (p : Coord) : VoxelCSG :=
  { t with nodes := (pathKeys t.height p).foldl (fun ns k => insertIfAbsent ns k true) t.nodes }

/-- Modelled from the spec: the coordinates of level-0 nodes whose payload is
`true`, as enumerated by `iter_roots` plus `visit_tree_depth_first` down to
level 0 (order unspecified by the spec; the arena order is the deterministic
stand-in). -/
def trueLeaves : List (NodeKey × Bool) → List Coord
  | [] => []
  | (k, v) :: rest => if k.1 = 0 ∧ v = true then k.2 :: trueLeaves rest else trueLeaves rest

/-- An empty tree of the given height: no roots, no nodes. -/
def mkEmpty (h : Nat) : VoxelCSG := ⟨h, []⟩

/-- `VoxelCSG::new`: the `u32` height is truncated to `u8` (`height as u8`)
before constructing the octree; construction of the octree itself is modelled
from the spec — it fails with `InvalidArgument` when the (truncated) height is
at most 1, and otherwise yields an empty tree with no roots. -/
def VoxelCSG.new (height : Nat) : Option VoxelCSG :=
  if height % 256 ≤ 1 then none else some (mkEmpty (height % 256))

/-- The three trees a binary combinator touches: the two borrowed inputs
(`self` and `other`) and the freshly allocated result. -/
structure CombineState where
  a : VoxelCSG
  b : VoxelCSG
  res : VoxelCSG
deriving DecidableEq

/-- Loop body of `union`'s `copy_true_leaves`: path-fill the visited true leaf
into the result; the borrowed inputs are only read. -/
def unionStep (s : CombineState) (c : Coord) : CombineState :=
  { s with res := fillPathTrue s.res c }

/-- `VoxelCSG::union` as explicit state passing: the result starts empty at
height `max(self.height, other.height)`; every true leaf of `self`, then every
true leaf of `other`, is path-filled into the result. -/
def unionRun (A B : VoxelCSG) : CombineState :=
  (trueLeaves A.nodes ++ trueLeaves B.nodes).foldl unionStep ⟨A, B, mkEmpty (max A.height B.height)⟩

/-- `VoxelCSG::union`: the result tree of `unionRun`. -/
def union (A B : VoxelCSG) : VoxelCSG := (unionRun A B).res

/-- Loop body of `intersection`: a true leaf of `self` is path-filled into the
result only when the point query on the borrowed `other` is also true. -/
def interStep (s : CombineState) (c : Coord) : CombineState :=
  if get_voxel s.b c then { s with res := fillPathTrue s.res c } else s

/-- `VoxelCSG::intersection` as explicit state passing: scan only `self`'s true
leaves and point-query `other` for each. -/
def interRun (A B : VoxelCSG) : CombineState :=
  (trueLeaves A.nodes).foldl interStep ⟨A, B, mkEmpty (max A.height B.height)⟩

/-- `VoxelCSG::intersection`: the result tree of `interRun`. -/
def intersection (A B : VoxelCSG) : VoxelCSG := (interRun A B).res

/-- Loop body of `difference`: a true leaf of `self` is kept only when the
point query on the borrowed `other` is false. -/
def diffStep (s : CombineState) (c : Coord) : CombineState :=
  if !get_voxel s.b c then { s with res := fillPathTrue s.res c } else s

/-- `VoxelCSG::difference` as explicit state passing. -/
def diffRun (A B : VoxelCSG) : CombineState :=
  (trueLeaves A.nodes).foldl diffStep ⟨A, B, mkEmpty (max A.height B.height)⟩

/-- `VoxelCSG::difference`: the result tree of `diffRun`. -/
def difference (A B : VoxelCSG) : VoxelCSG := (diffRun A B).res

/-- `VoxelCSG::invert_in_place`: collect every node reachable from every root
(in the arena model, every node the tree tracks) and flip each stored boolean;
no node is added or removed. -/
def invert_in_place (t : VoxelCSG) : VoxelCSG :=
  { t with nodes := t.nodes.map (fun e => (e.1, !e.2)) }

/-- The sequence of points handed to the external codec by
`save_to_magicavoxel` via `add_voxel`: one `(coordinate, 255)` entry per true
level-0 leaf, in traversal order. -/
def exportPoints (t : VoxelCSG) : List (Coord × Nat) :=
  (trueLeaves t.nodes).map (fun c => (c, 255))

/-- The integers from `a` to `b` inclusive, in increasing order. -/
def intRange (a b : Int) : List Int :=
  (List.range (b + 1 - a).toNat).map (fun i => a + (i : Int))

/-- The coordinates of the inclusive box `[mn, mx]`, enumerated z-outermost,
then y, then x, matching the rasterizer loop nests. -/
def boxPoints (mn mx : Coord) : List Coord :=
  (intRange mn.2.2 mx.2.2).flatMap (fun z =>
    (intRange mn.2.1 mx.2.1).flatMap (fun y =>
      (intRange mn.1 mx.1).map (fun x => ((x, y, z) : Coord))))

/-- The stub inside-test of `fill_polyhedron`: it ignores the vertex and face
arguments and reports inside iff `x + y + z` has remainder 0 modulo 2 (Rust `%`
is truncated remainder, `Int.tmod`). -/
def point_in_polyhedron (p : Coord) (verts : List Coord)
    (inds : List (Nat × Nat × Nat)) : Bool :=
  (p.1 + p.2.1 + p.2.2).tmod 2 == 0

/-- `VoxelCSG::fill_polyhedron`: scan the inclusive bounding box and path-fill
every coordinate the inside-test accepts. -/
def fill_polyhedron (t : VoxelCSG) (mn mx : Coord) (verts : List Coord)
    (inds : List (Nat × Nat × Nat)) : VoxelCSG :=
  (boxPoints mn mx).foldl
    (fun acc p => if point_in_polyhedron p verts inds then fillPathTrue acc p else acc) t

/-- A well-formed tree: a valid construction height (`> 1`) and no two arena
entries sharing a key. -/
abbrev Wf (t : VoxelCSG) : Prop :=
  1 < t.height ∧ (t.nodes.map Prod.fst).Nodup

/-- Every level-0 node of the tree stores `true` (holds for every tree built by
path-fills from empty, since the initializer is always `true`). -/
def AllTrue0 (t : VoxelCSG) : Prop :=
  ∀ c v, findVal t.nodes (0, c) = some v → v = true

/-! ### Storage lemmas -/

/-- Lookup after an insert-if-vacant: the new payload only shows up at the
inserted key and only when that key was vacant. -/
theorem findVal_insertIfAbsent (ns : List (NodeKey × Bool)) (k : NodeKey) (v : Bool)
    (k0 : NodeKey) :
    findVal (insertIfAbsent ns k v) k0 =
      if k = k0 ∧ findVal ns k = none then some v else findVal ns k0 := by
  unfold insertIfAbsent
  cases h : findVal ns k with
  | some w => simp [h]
  | none =>
      by_cases hk : k = k0
      · subst hk
        simp [findVal, h]
      · simp [findVal, hk, h]

/-- Lookup after a fold of insert-if-vacant with payload `true` over a key list. -/
theorem findVal_foldl_insert (L : List NodeKey) (ns : List (NodeKey × Bool)) (k0 : NodeKey) :
    findVal (L.foldl (fun ns k => insertIfAbsent ns k true) ns) k0 =
      if k0 ∈ L ∧ findVal ns k0 = none then some true else findVal ns k0 := by
  induction L generalizing ns with
  | nil => simp
  | cons k L ih =>
      rw [List.foldl_cons, ih]
      simp only [findVal_insertIfAbsent]
      by_cases hk : k = k0
      · subst hk
        cases h : findVal ns k with
        | some w => simp [h]
        | none => simp [h, List.mem_cons]
      · simp [hk, Ne.symm hk, List.mem_cons]

/-- At level 0 the ancestor cube is the coordinate itself. -/
theorem ancestorCoord_zero (p : Coord) : ancestorCoord 0 p = p := by
  unfold ancestorCoord
  simp [Int.fdiv_one]

/-- The only level-0 key on a root-to-leaf path is the leaf itself, and it is
present iff the tree has at least one level. -/
theorem zero_mem_pathKeys_iff (h : Nat) (p q : Coord) :
    ((0 : Nat), q) ∈ pathKeys h p ↔ (0 < h ∧ q = p) := by
  unfold pathKeys
  rw [List.mem_map]
  constructor
  · rintro ⟨l, hl, he⟩
    rw [List.mem_reverse, List.mem_range] at hl
    have h1 : l = 0 := congrArg Prod.fst he
    subst h1
    have h2 : ancestorCoord 0 p = q := congrArg Prod.snd he
    rw [ancestorCoord_zero] at h2
    exact ⟨hl, h2.symm⟩
  · rintro ⟨h0, rfl⟩
    exact ⟨0, by rw [List.mem_reverse, List.mem_range]; exact h0, by rw [ancestorCoord_zero]⟩

/-- Level-0 lookup after a path-fill: the leaf gets payload `true` exactly when
it was vacant and the tree has at least one level; nothing else changes. -/
theorem findVal_fillPathTrue_zero (t : VoxelCSG) (p q : Coord) :
    findVal (fillPathTrue t p).nodes ((0 : Nat), q) =
      if q = p ∧ 0 < t.height ∧ findVal t.nodes ((0 : Nat), p) = none then some true
      else findVal t.nodes ((0 : Nat), q) := by
  show findVal ((pathKeys t.height p).foldl (fun ns k => insertIfAbsent ns k true) t.nodes)
      ((0 : Nat), q) = _
  rw [findVal_foldl_insert]
  simp only [zero_mem_pathKeys_iff]
  by_cases hq : q = p
  · subst hq
    by_cases hh : 0 < t.height
    · by_cases hn : findVal t.nodes ((0 : Nat), q) = none
      · simp [hh, hn]
      · simp [hh, hn]
    · simp [hh]
  · simp [hq]

/-- Path-fill keeps the all-level-0-payloads-true invariant. -/
theorem allTrue0_fillPathTrue (t : VoxelCSG) (p : Coord) (ha : AllTrue0 t) :
    AllTrue0 (fillPathTrue t p) := by
  intro c v h
  rw [findVal_fillPathTrue_zero] at h
  split at h
  · exact (Option.some.inj h).symm
  · exact ha c v h

/-- The empty tree satisfies the all-level-0-payloads-true invariant. -/
theorem allTrue0_mkEmpty (h : Nat) : AllTrue0 (mkEmpty h) := by
  intro c v hc
  simp [mkEmpty, findVal] at hc

/-- Reading a path-filled tree whose level-0 payloads are all `true`: the read
is the old read or-ed with being the filled coordinate. -/
theorem get_voxel_fillPathTrue (t : VoxelCSG) (p q : Coord) (hh : 0 < t.height)
    (ha : AllTrue0 t) :
    get_voxel (fillPathTrue t p) q = (get_voxel t q || decide (q = p)) := by
  unfold get_voxel
  rw [findVal_fillPathTrue_zero]
  by_cases hq : q = p
  · subst hq
    cases hn : findVal t.nodes ((0 : Nat), q) with
    | none => simp [hh, hn]
    | some v =>
        have hv := ha q v hn
        subst hv
        simp [hn]
  · simp [hq]

/-- Reading after folding path-fills over a coordinate list: the old read or-ed
with membership in the list. -/
theorem get_voxel_foldl_fill (cs : List Coord) :
    ∀ t : VoxelCSG, 0 < t.height → AllTrue0 t → ∀ q : Coord,
      get_voxel (cs.foldl fillPathTrue t) q = (get_voxel t q || decide (q ∈ cs)) := by
  induction cs with
  | nil =>
      intro t hh ha q
      simp
  | cons c cs ih =>
      intro t hh ha q
      rw [List.foldl_cons,
        ih (fillPathTrue t c) hh (allTrue0_fillPathTrue t c ha) q,
        get_voxel_fillPathTrue t c q hh ha]
      by_cases hq : q = c
      · simp [hq, List.mem_cons]
      · simp [hq, List.mem_cons]

/-- A coordinate absent at level 0 and not in the filled list stays absent. -/
theorem findVal_foldl_fill_none (cs : List Coord) :
    ∀ t : VoxelCSG, ∀ q : Coord, q ∉ cs → findVal t.nodes ((0 : Nat), q) = none →
      findVal (cs.foldl fillPathTrue t).nodes ((0 : Nat), q) = none := by
  induction cs with
  | nil =>
      intro t q _ h0
      simpa using h0
  | cons c cs ih =>
      intro t q hq h0
      rw [List.foldl_cons]
      apply ih
      · exact fun h => hq (List.mem_cons_of_mem c h)
      · rw [findVal_fillPathTrue_zero]
        have hqc : ¬ q = c := fun h => hq (by rw [h]; exact List.mem_cons_self c cs)
        simp [hqc, h0]

/-! ### True-leaf enumeration lemmas -/

/-- A read is `true` exactly when the level-0 node exists with payload `true`. -/
theorem get_voxel_eq_true_iff (t : VoxelCSG) (p : Coord) :
    get_voxel t p = true ↔ findVal t.nodes ((0 : Nat), p) = some true := by
  unfold get_voxel
  cases h : findVal t.nodes ((0 : Nat), p) with
  | none => simp
  | some v => simp

/-- A vacant key is exactly a key outside the arena's key list. -/
theorem findVal_eq_none_iff : ∀ ns : List (NodeKey × Bool), ∀ k : NodeKey,
    findVal ns k = none ↔ k ∉ ns.map Prod.fst := by
  intro ns
  induction ns with
  | nil => intro k; simp [findVal]
  | cons e ns ih =>
      intro k
      obtain ⟨k0, v⟩ := e
      simp only [findVal, List.map_cons, List.mem_cons]
      by_cases h : k0 = k
      · simp [h]
      · simp [h, Ne.symm h, ih k]

/-- Every enumerated true-leaf coordinate has its level-0 key in the arena. -/
theorem mem_trueLeaves_keys : ∀ ns : List (NodeKey × Bool), ∀ p : Coord,
    p ∈ trueLeaves ns → ((0 : Nat), p) ∈ ns.map Prod.fst := by
  intro ns
  induction ns with
  | nil =>
      intro p hp
      simp [trueLeaves] at hp
  | cons e ns ih =>
      intro p hp
      obtain ⟨k, v⟩ := e
      simp only [trueLeaves] at hp
      rw [List.map_cons]
      split at hp
      · rename_i hc
        rcases List.mem_cons.mp hp with h1 | h1
        · apply List.mem_cons.mpr
          left
          rw [h1, ← hc.1]
        · exact List.mem_cons_of_mem _ (ih p h1)
      · exact List.mem_cons_of_mem _ (ih p hp)

/-- With no duplicate keys, the enumerated true leaves are exactly the
coordinates whose level-0 node stores `true`. -/
theorem mem_trueLeaves_iff : ∀ ns : List (NodeKey × Bool),
    (ns.map Prod.fst).Nodup → ∀ p : Coord,
      (p ∈ trueLeaves ns ↔ findVal ns ((0 : Nat), p) = some true) := by
  intro ns
  induction ns with
  | nil =>
      intro _ p
      simp [trueLeaves, findVal]
  | cons e ns ih =>
      intro hnd p
      obtain ⟨k, v⟩ := e
      rw [List.map_cons, List.nodup_cons] at hnd
      obtain ⟨hk, hnd'⟩ := hnd
      simp only [trueLeaves, findVal]
      by_cases hkp : k = ((0 : Nat), p)
      · subst hkp
        by_cases hv : v = true
        · subst hv
          simp [List.mem_cons]
        · have hmem : p ∉ trueLeaves ns := fun h => hk (mem_trueLeaves_keys ns p h)
          simp [hv, hmem]
      · by_cases hc : k.1 = 0 ∧ v = true
        · have hne2 : ¬ p = k.2 := by
            intro h
            exact hkp (by rw [← hc.1, h])
          simp [hc, hkp, List.mem_cons, hne2, ih hnd' p]
        · simp [hc, hkp, ih hnd' p]

/-- With no duplicate keys, the true-leaf enumeration has no duplicates. -/
theorem nodup_trueLeaves : ∀ ns : List (NodeKey × Bool),
    (ns.map Prod.fst).Nodup → (trueLeaves ns).Nodup := by
  intro ns
  induction ns with
  | nil =>
      intro _
      simp [trueLeaves]
  | cons e ns ih =>
      intro hnd
      obtain ⟨k, v⟩ := e
      rw [List.map_cons, List.nodup_cons] at hnd
      obtain ⟨hk, hnd'⟩ := hnd
      simp only [trueLeaves]
      split
      · rename_i hc
        rw [List.nodup_cons]
        refine ⟨fun h => hk ?_, ih hnd'⟩
        have hm := mem_trueLeaves_keys ns k.2 h
        rw [← hc.1] at hm
        exact hm
      · exact ih hnd'

/-- Lookup in the flipped arena is the flipped lookup. -/
theorem findVal_map_flip : ∀ ns : List (NodeKey × Bool), ∀ k : NodeKey,
    findVal (ns.map (fun e => (e.1, !e.2))) k = Option.map (fun v => !v) (findVal ns k) := by
  intro ns
  induction ns with
  | nil => intro k; simp [findVal]
  | cons e ns ih =>
      intro k
      obtain ⟨k0, v⟩ := e
      simp only [List.map_cons, findVal]
      by_cases h : k0 = k
      · simp [h]
      · simp [h, ih k]

/-! ### Commuting the state-passing combinators into plain folds -/

/-- The union loop only writes the result component. -/
theorem foldl_unionStep (cs : List Coord) : ∀ s : CombineState,
    cs.foldl unionStep s = ⟨s.a, s.b, cs.foldl fillPathTrue s.res⟩ := by
  induction cs with
  | nil => intro s; rfl
  | cons c cs ih =>
      intro s
      rw [List.foldl_cons, ih, List.foldl_cons]
      rfl

/-- The intersection loop only writes the result component, and fills exactly
the scanned leaves on which the point query against `other` is true. -/
theorem foldl_interStep (cs : List Coord) : ∀ s : CombineState,
    cs.foldl interStep s =
      ⟨s.a, s.b, (cs.filter (fun c => get_voxel s.b c)).foldl fillPathTrue s.res⟩ := by
  induction cs with
  | nil => intro s; rfl
  | cons c cs ih =>
      intro s
      rw [List.foldl_cons, ih, List.filter_cons]
      by_cases h : get_voxel s.b c
      · simp [interStep, h]
      · simp [interStep, h]

/-- The difference loop only writes the result component, and fills exactly the
scanned leaves on which the point query against `other` is false. -/
theorem foldl_diffStep (cs : List Coord) : ∀ s : CombineState,
    cs.foldl diffStep s =
      ⟨s.a, s.b, (cs.filter (fun c => !get_voxel s.b c)).foldl fillPathTrue s.res⟩ := by
  induction cs with
  | nil => intro s; rfl
  | cons c cs ih =>
      intro s
      rw [List.foldl_cons, ih, List.filter_cons]
      by_cases h : get_voxel s.b c
      · simp [diffStep, h]
      · simp [diffStep, h]

/-! ### Claim theorems -/

/-- Keys are unchanged by flipping payloads. -/
theorem map_fst_flip (ns : List (NodeKey × Bool)) :
    (ns.map (fun e => (e.1, !e.2))).map Prod.fst = ns.map Prod.fst := by
  induction ns with
  | nil => rfl
  | cons e ns ih => simp [ih]

/-- Projecting the coordinates back out of the export pairing is the identity. -/
theorem map_fst_pair (l : List Coord) :
    (l.map (fun c => (c, (255 : Nat)))).map Prod.fst = l := by
  induction l with
  | nil => rfl
  | cons c l ih => simp [ih]

/-- The empty tree reads false everywhere. -/
theorem get_voxel_mkEmpty (h : Nat) (p : Coord) : get_voxel (mkEmpty h) p = false := rfl

/-- C1: for every two well-formed trees A and B (of equal or differing heights)
and every coordinate p, the point query on the tree returned by union satisfies
read(union(A,B), p) = read(A,p) OR read(B,p); moreover a coordinate whose
level-0 node is absent from both inputs has no level-0 node in the result
either (hence reads false). -/
theorem union_read_or (A B : VoxelCSG) (hA : Wf A) (hB : Wf B) (p : Coord) :
    get_voxel (union A B) p = (get_voxel A p || get_voxel B p) ∧
    (findVal A.nodes ((0 : Nat), p) = none → findVal B.nodes ((0 : Nat), p) = none →
      findVal (union A B).nodes ((0 : Nat), p) = none) := by
  have hh : 0 < max A.height B.height :=
    Nat.lt_of_lt_of_le (Nat.lt_trans Nat.zero_lt_one hA.1) (Nat.le_max_left _ _)
  have hres : union A B
      = (trueLeaves A.nodes ++ trueLeaves B.nodes).foldl fillPathTrue
          (mkEmpty (max A.height B.height)) := by
    unfold union unionRun
    rw [foldl_unionStep]
  have hA' : p ∈ trueLeaves A.nodes ↔ get_voxel A p = true :=
    (mem_trueLeaves_iff A.nodes hA.2 p).trans (get_voxel_eq_true_iff A p).symm
  have hB' : p ∈ trueLeaves B.nodes ↔ get_voxel B p = true :=
    (mem_trueLeaves_iff B.nodes hB.2 p).trans (get_voxel_eq_true_iff B p).symm
  constructor
  · rw [hres, get_voxel_foldl_fill _ _ hh (allTrue0_mkEmpty _) p]
    cases hga : get_voxel A p with
    | true => simp [List.mem_append, hA'.mpr hga, get_voxel_mkEmpty]
    | false =>
        cases hgb : get_voxel B p with
        | true => simp [List.mem_append, hB'.mpr hgb, get_voxel_mkEmpty]
        | false =>
            have h1 : p ∉ trueLeaves A.nodes := by simp [hA', hga]
            have h2 : p ∉ trueLeaves B.nodes := by simp [hB', hgb]
            simp [List.mem_append, h1, h2, get_voxel_mkEmpty]
  · intro ha0 hb0
    rw [hres]
    refine findVal_foldl_fill_none _ _ p ?_ rfl
    intro hmem
    rcases List.mem_append.mp hmem with h | h
    · rw [mem_trueLeaves_iff A.nodes hA.2 p, ha0] at h
      exact Option.noConfusion h
    · rw [mem_trueLeaves_iff B.nodes hB.2 p, hb0] at h
      exact Option.noConfusion h

/-- Witness for C1 at concrete trees of differing heights (2 and 3). -/
theorem union_read_or_witness :
    get_voxel
        (union (fillPathTrue (mkEmpty 2) ((0 : Int), 0, 0))
          (fillPathTrue (mkEmpty 3) ((1 : Int), 0, 0))) ((1 : Int), 0, 0)
      = (get_voxel (fillPathTrue (mkEmpty 2) ((0 : Int), 0, 0)) ((1 : Int), 0, 0) ||
          get_voxel (fillPathTrue (mkEmpty 3) ((1 : Int), 0, 0)) ((1 : Int), 0, 0)) ∧
    findVal
        (union (fillPathTrue (mkEmpty 2) ((0 : Int), 0, 0))
          (fillPathTrue (mkEmpty 3) ((1 : Int), 0, 0))).nodes
        ((0 : Nat), ((5 : Int), 5, 5)) = none :=
  ⟨(union_read_or (fillPathTrue (mkEmpty 2) ((0 : Int), 0, 0))
      (fillPathTrue (mkEmpty 3) ((1 : Int), 0, 0)) (by decide) (by decide)
      ((1 : Int), 0, 0)).1,
    (union_read_or (fillPathTrue (mkEmpty 2) ((0 : Int), 0, 0))
      (fillPathTrue (mkEmpty 3) ((1 : Int), 0, 0)) (by decide) (by decide)
      ((5 : Int), 5, 5)).2 (by decide) (by decide)⟩

/-- C2: for every well-formed tree A, every tree B and every coordinate p,
read(intersection(A,B), p) = read(A,p) AND read(B,p); the scan visits only A's
true level-0 leaves and point-queries B, with absence in B counted as false. -/
theorem intersection_read_and (A B : VoxelCSG) (hA : Wf A) (p : Coord) :
    get_voxel (intersection A B) p = (get_voxel A p && get_voxel B p) := by
  have hh : 0 < max A.height B.height :=
    Nat.lt_of_lt_of_le (Nat.lt_trans Nat.zero_lt_one hA.1) (Nat.le_max_left _ _)
  have hres : intersection A B
      = ((trueLeaves A.nodes).filter (fun c => get_voxel B c)).foldl fillPathTrue
          (mkEmpty (max A.height B.height)) := by
    unfold intersection interRun
    rw [foldl_interStep]
  have hA' : p ∈ trueLeaves A.nodes ↔ get_voxel A p = true :=
    (mem_trueLeaves_iff A.nodes hA.2 p).trans (get_voxel_eq_true_iff A p).symm
  rw [hres, get_voxel_foldl_fill _ _ hh (allTrue0_mkEmpty _) p]
  cases hga : get_voxel A p <;> cases hgb : get_voxel B p <;>
    simp [List.mem_filter, hA', hga, hgb, get_voxel_mkEmpty]

/-- Witness for C2: a coordinate true in B but absent in A reads false in the
intersection. -/
theorem intersection_read_and_witness :
    get_voxel
        (intersection (fillPathTrue (mkEmpty 2) ((0 : Int), 0, 0))
          (fillPathTrue (mkEmpty 2) ((1 : Int), 0, 0))) ((1 : Int), 0, 0)
      = (get_voxel (fillPathTrue (mkEmpty 2) ((0 : Int), 0, 0)) ((1 : Int), 0, 0) &&
          get_voxel (fillPathTrue (mkEmpty 2) ((1 : Int), 0, 0)) ((1 : Int), 0, 0)) :=
  intersection_read_and (fillPathTrue (mkEmpty 2) ((0 : Int), 0, 0))
    (fillPathTrue (mkEmpty 2) ((1 : Int), 0, 0)) (by decide) ((1 : Int), 0, 0)

/-- C3: for every well-formed tree A, every tree B and every coordinate p,
read(difference(A,B), p) = read(A,p) AND NOT read(B,p); a coordinate with no
level-0 node in B counts as false in B. -/
theorem difference_read_andnot (A B : VoxelCSG) (hA : Wf A) (p : Coord) :
    get_voxel (difference A B) p = (get_voxel A p && !get_voxel B p) := by
  have hh : 0 < max A.height B.height :=
    Nat.lt_of_lt_of_le (Nat.lt_trans Nat.zero_lt_one hA.1) (Nat.le_max_left _ _)
  have hres : difference A B
      = ((trueLeaves A.nodes).filter (fun c => !get_voxel B c)).foldl fillPathTrue
          (mkEmpty (max A.height B.height)) := by
    unfold difference diffRun
    rw [foldl_diffStep]
  have hA' : p ∈ trueLeaves A.nodes ↔ get_voxel A p = true :=
    (mem_trueLeaves_iff A.nodes hA.2 p).trans (get_voxel_eq_true_iff A p).symm
  rw [hres, get_voxel_foldl_fill _ _ hh (allTrue0_mkEmpty _) p]
  cases hga : get_voxel A p <;> cases hgb : get_voxel B p <;>
    simp [List.mem_filter, hA', hga, hgb, get_voxel_mkEmpty]

/-- Witness for C3 at concrete trees: the coordinate filled in both trees is
removed by the difference. -/
theorem difference_read_andnot_witness :
    get_voxel
        (difference (fillPathTrue (mkEmpty 2) ((0 : Int), 0, 0))
          (fillPathTrue (mkEmpty 2) ((0 : Int), 0, 0))) ((0 : Int), 0, 0)
      = (get_voxel (fillPathTrue (mkEmpty 2) ((0 : Int), 0, 0)) ((0 : Int), 0, 0) &&
          !get_voxel (fillPathTrue (mkEmpty 2) ((0 : Int), 0, 0)) ((0 : Int), 0, 0)) :=
  difference_read_andnot (fillPathTrue (mkEmpty 2) ((0 : Int), 0, 0))
    (fillPathTrue (mkEmpty 2) ((0 : Int), 0, 0)) (by decide) ((0 : Int), 0, 0)

/-- C4: union, intersection and difference never mutate either input — the
borrowed `self` and `other` components are unchanged by the whole run (so every
read on them is the same before and after the call) — and each result is the
tree built by path-fills into a freshly allocated empty tree of height
max(self.height, other.height). -/
theorem combinators_pure (A B : VoxelCSG) :
    (unionRun A B).a = A ∧ (unionRun A B).b = B ∧
    (interRun A B).a = A ∧ (interRun A B).b = B ∧
    (diffRun A B).a = A ∧ (diffRun A B).b = B ∧
    union A B = (trueLeaves A.nodes ++ trueLeaves B.nodes).foldl fillPathTrue
      (mkEmpty (max A.height B.height)) ∧
    intersection A B = ((trueLeaves A.nodes).filter (fun c => get_voxel B c)).foldl
      fillPathTrue (mkEmpty (max A.height B.height)) ∧
    difference A B = ((trueLeaves A.nodes).filter (fun c => !get_voxel B c)).foldl
      fillPathTrue (mkEmpty (max A.height B.height)) := by
  unfold union intersection difference unionRun interRun diffRun
  rw [foldl_unionStep, foldl_interStep, foldl_diffStep]
  exact ⟨rfl, rfl, rfl, rfl, rfl, rfl, rfl, rfl, rfl⟩

/-- C5 counterexample: height 256 exceeds 1, yet construction fails — the
`u32` height is truncated to `u8` before the octree is built, so 256 becomes 0. -/
theorem new_fails_at_256 : (1 : Nat) < 256 ∧ VoxelCSG.new 256 = none :=
  ⟨by decide, by decide⟩

/-- C5 (amended): construction fails exactly when the height truncated to u8
is at most 1 (height % 256 ≤ 1), returning no partial tree; every successful
construction yields an empty tree that reads false at every coordinate. -/
theorem new_mod256_spec (h : Nat) :
    (VoxelCSG.new h = none ↔ h % 256 ≤ 1) ∧
    (∀ t : VoxelCSG, VoxelCSG.new h = some t → ∀ p : Coord, get_voxel t p = false) := by
  constructor
  · unfold VoxelCSG.new
    split
    · rename_i hc
      simp [hc]
    · rename_i hc
      simp [hc]
  · intro t ht p
    unfold VoxelCSG.new at ht
    split at ht
    · exact Option.noConfusion ht
    · have h2 : mkEmpty (h % 256) = t := Option.some.inj ht
      rw [← h2]
      rfl

/-- Witness for C5's amended statement at height 2. -/
theorem new_mod256_spec_witness :
    (VoxelCSG.new 2 = none ↔ (2 : Nat) % 256 ≤ 1) ∧
    get_voxel (mkEmpty 2) ((7 : Int), 8, 9) = false :=
  ⟨(new_mod256_spec 2).1, (new_mod256_spec 2).2 (mkEmpty 2) (by decide) ((7 : Int), 8, 9)⟩

/-- C6: path-fill never modifies an already-existing node — every pre-existing
arena entry keeps its stored payload across any fillPathFromRoot call (the
initializer runs only on newly created vacant slots); in particular a level-0
node holding false (e.g. after invert_in_place) keeps payload false when a
rasterizer or combinator path-fills over its coordinate again. -/
theorem fillPath_frame (t : VoxelCSG) (c : Coord) (k : NodeKey) (v : Bool)
    (h : findVal t.nodes k = some v) :
    findVal (fillPathTrue t c).nodes k = some v := by
  show findVal ((pathKeys t.height c).foldl (fun ns k => insertIfAbsent ns k true) t.nodes) k
      = some v
  rw [findVal_foldl_insert]
  simp [h]

/-- Witness for C6: after invert_in_place turns the level-0 node at the origin
to false, path-filling over the same coordinate leaves it false. -/
theorem fillPath_frame_witness :
    findVal
        (fillPathTrue (invert_in_place (fillPathTrue (mkEmpty 2) ((0 : Int), 0, 0)))
          ((0 : Int), 0, 0)).nodes
        ((0 : Nat), ((0 : Int), 0, 0)) = some false :=
  fillPath_frame (invert_in_place (fillPathTrue (mkEmpty 2) ((0 : Int), 0, 0)))
    ((0 : Int), 0, 0) ((0 : Nat), ((0 : Int), 0, 0)) false (by decide)

/-- C7: invert_in_place is an involution on the stored values — applying it
twice restores every read, and a single application neither adds nor removes
nodes (so never-materialized coordinates stay absent and read false
throughout). -/
theorem invert_involution (t : VoxelCSG) (p : Coord) :
    get_voxel (invert_in_place (invert_in_place t)) p = get_voxel t p ∧
    (invert_in_place t).nodes.map Prod.fst = t.nodes.map Prod.fst := by
  constructor
  · simp only [get_voxel, invert_in_place, findVal_map_flip]
    cases h : findVal t.nodes ((0 : Nat), p) with
    | none => simp
    | some v => simp
  · exact map_fst_flip t.nodes

/-- C8: the point stream handed to the codec contains exactly one entry, with
the fixed color index 255, per coordinate whose read is true — no duplicate
coordinates, and no entry for any coordinate that reads false or is absent. -/
theorem export_exact (t : VoxelCSG) (hnd : (t.nodes.map Prod.fst).Nodup) :
    ((exportPoints t).map Prod.fst).Nodup ∧
    ∀ c : Coord, ∀ ci : Nat,
      ((c, ci) ∈ exportPoints t ↔ (ci = 255 ∧ get_voxel t c = true)) := by
  constructor
  · rw [show (exportPoints t).map Prod.fst = trueLeaves t.nodes from map_fst_pair _]
    exact nodup_trueLeaves t.nodes hnd
  · intro c ci
    unfold exportPoints
    rw [List.mem_map]
    constructor
    · rintro ⟨c', hc', he⟩
      have h1 : c' = c := congrArg Prod.fst he
      have h2 : (255 : Nat) = ci := congrArg Prod.snd he
      have h3 := (mem_trueLeaves_iff t.nodes hnd c').mp hc'
      refine ⟨h2.symm, ?_⟩
      rw [get_voxel_eq_true_iff, ← h1]
      exact h3
    · rintro ⟨rfl, hg⟩
      exact ⟨c, (mem_trueLeaves_iff t.nodes hnd c).mpr ((get_voxel_eq_true_iff t c).mp hg), rfl⟩

/-- Witness for C8 on a concrete one-voxel tree. -/
theorem export_exact_witness :
    ((exportPoints (fillPathTrue (mkEmpty 2) ((1 : Int), 2, 3))).map Prod.fst).Nodup ∧
    ((((1 : Int), 2, 3), (255 : Nat)) ∈ exportPoints (fillPathTrue (mkEmpty 2) ((1 : Int), 2, 3)) ↔
      ((255 : Nat) = 255 ∧
        get_voxel (fillPathTrue (mkEmpty 2) ((1 : Int), 2, 3)) ((1 : Int), 2, 3) = true)) :=
  ⟨(export_exact (fillPathTrue (mkEmpty 2) ((1 : Int), 2, 3)) (by decide)).1,
    (export_exact (fillPathTrue (mkEmpty 2) ((1 : Int), 2, 3)) (by decide)).2
      ((1 : Int), 2, 3) 255⟩

/-- C10: fill_polyhedron's result is independent of its vertex and face
arguments — the inside test actually used depends only on the point itself
(parity of x+y+z within the inclusive box) — so any two choices of vertex and
face lists produce the same tree and identical reads at every coordinate. -/
theorem fill_polyhedron_ignores_geometry (mn mx : Coord) (V1 V2 : List Coord)
    (F1 F2 : List (Nat × Nat × Nat)) (t : VoxelCSG) (p : Coord) :
    fill_polyhedron t mn mx V1 F1 = fill_polyhedron t mn mx V2 F2 ∧
    get_voxel (fill_polyhedron t mn mx V1 F1) p
      = get_voxel (fill_polyhedron t mn mx V2 F2) p :=
  ⟨rfl, rfl⟩
